import Mathlib

/-!
Shallow embedding of `lib/Crypto/Util/asn1.py`, a minimal ASN.1 DER codec
(length octets, TLV framing, INTEGER and SEQUENCE), together with proofs
about its stated properties.

Byte strings are modelled as `List Nat` (each entry a byte value 0..255);
Python's arbitrary-precision non-negative integers are `Nat`.  Exceptions
are modelled with `Except`: Python `IndexError` and the distinct
`ValueError` messages of the source become the constructors of `Err`.
-/

deriving instance DecidableEq for Except

namespace Asn1

/-- The exceptions the source can raise.  `indexError` is Python's
`IndexError` (out-of-range subscript); the remaining constructors are the
`ValueError`s of the source, one per distinct message:
`notDerLengthTag` = "Not a DER length tag." (spec kind InvalidLength),
`unsupportedTag` = "Unsupported DER tag" (spec kind UnsupportedTag),
`notDerStructure` = "Not a DER structure" (spec kind TrailingData),
`notValidDerSequence` = "Not a valid DER SEQUENCE." (raised when an
`IndexError` is caught, spec kind ShortBuffer/MalformedSequence),
`notDerInteger` = "Not a DER INTEGER." (spec kind WrongTag),
`negativeInteger` = "Negative INTEGER." (spec kind NegativeInteger),
`notDerSequence` = "Not a DER SEQUENCE." (spec kind WrongTag). -/
inductive Err where
  | indexError
  | notDerLengthTag
  | unsupportedTag
  | notDerStructure
  | notValidDerSequence
  | notDerInteger
  | negativeInteger
  | notDerSequence
  deriving DecidableEq, Repr

/-- Python subscript `s[i]` on a byte string: the byte, or `IndexError`. -/
def pyIndex (s : List Nat) (i : Nat) : Except Err Nat :=
  match s[i]? with
  | some c => .ok c
  | none => .error .indexError

/-- Python slice `s[a:b]` (with non-negative bounds): never raises, and
silently truncates when `b` exceeds the length. -/
def pySlice (s : List Nat) (a b : Nat) : List Nat :=
  (s.take b).drop a

/-- Python slice `s[a:]`. -/
def pySliceFrom (s : List Nat) (a : Nat) : List Nat :=
  s.drop a

/-- `Crypto.Util.number.bytes_to_long`: big-endian interpretation of a
byte string (empty string yields 0). -/
def bytes_to_long (s : List Nat) : Nat :=
  s.foldl (fun acc c => acc * 256 + c) 0

/-- Big-endian digit extraction used by `long_to_bytes`, with explicit
fuel (any fuel `≥ n` computes all base-256 digits of `n`). -/
def natBEAux : Nat → Nat → List Nat → List Nat
  | _, 0, acc => acc
  | 0, _ + 1, acc => acc
  | fuel + 1, n + 1, acc =>
      natBEAux fuel ((n + 1) / 256) ((n + 1) % 256 :: acc)

/-- `Crypto.Util.number.long_to_bytes` (with default block size): the
minimal big-endian byte encoding of `n`, where 0 encodes as the single
byte `0x00`. -/
def long_to_bytes (n : Nat) : List Nat :=
  if n = 0 then [0] else natBEAux n n []

/-- `DerObject._lengthOctets`: DER encoding of a payload length.  The
source computes `chr(len(encoding)+128) + encoding` for the long form;
`chr` of a byte value is modelled as a one-byte string. -/
def lengthOctets (payloadLen : Nat) : List Nat :=
  if payloadLen > 127 then
    let encoding := long_to_bytes payloadLen
    (encoding.length + 128) :: encoding
  else [payloadLen]

/-- `DerObject.encode`: tag, length octets, payload. -/
def derObjectEncode (typeTag : Nat) (payload : List Nat) : List Nat :=
  typeTag :: (lengthOctets payload.length ++ payload)

/-- `DerObject._decodeLen`: read a DER length field at index `idx` of
`str`; return the payload length and the index of the first payload
byte. -/
def decodeLen (idx : Nat) (str : List Nat) : Except Err (Nat × Nat) :=
  match pyIndex str idx with
  | .error e => .error e
  | .ok length =>
    if length ≤ 127 then
      .ok (length, idx + 1)
    else
      let payloadLength :=
        bytes_to_long (pySlice str (idx + 1) (idx + 1 + (length &&& 0x7F)))
      if payloadLength ≤ 127 then .error .notDerLengthTag
      else .ok (payloadLength, idx + 1 + (length &&& 0x7F))

/-- Body of the `try:` block of `DerObject.decode`: returns the tag byte,
the (possibly silently truncated) payload slice, and the index of the
first unused byte. -/
def derObjectDecodeAux (derEle : List Nat) (noLeftOvers : Bool) :
    Except Err (Nat × List Nat × Nat) :=
  match pyIndex derEle 0 with
  | .error e => .error e
  | .ok typeTag =>
    if typeTag &&& 0x1F = 0x1F then .error .unsupportedTag
    else
      match decodeLen 1 derEle with
      | .error e => .error e
      | .ok (length, idx) =>
        if noLeftOvers ∧ derEle.length ≠ idx + length then
          .error .notDerStructure
        else
          .ok (typeTag, pySlice derEle idx (idx + length), idx + length)

/-- `DerObject.decode`: the `try: ... except IndexError:` wrapper turns
any `IndexError` into `ValueError("Not a valid DER SEQUENCE.")`. -/
def derObjectDecode (derEle : List Nat) (noLeftOvers : Bool) :
    Except Err (Nat × List Nat × Nat) :=
  match derObjectDecodeAux derEle noLeftOvers with
  | .error .indexError => .error .notValidDerSequence
  | r => r

/-- The payload `DerInteger.encode` builds: `long_to_bytes(value)`, with
a `0x00` byte prepended when the first byte exceeds 127.  (The payload
of `long_to_bytes` is never empty, so the subscript `payload[0]` of the
source never raises here.) -/
def derIntegerEncodePayload (value : Nat) : List Nat :=
  if 127 < (long_to_bytes value).headI then 0 :: long_to_bytes value
  else long_to_bytes value

/-- `DerInteger.encode`: INTEGER tag `0x02`, length octets, payload. -/
def derIntegerEncode (value : Nat) : List Nat :=
  derObjectEncode 0x02 (derIntegerEncodePayload value)

/-- `DerInteger.decode`: returns the decoded value and the index of the
first unused byte.  Note there is no `try/except` here: the subscript
`self.payload[0]` can raise a bare `IndexError`. -/
def derIntegerDecode (derEle : List Nat) (noLeftOvers : Bool) :
    Except Err (Nat × Nat) :=
  match derObjectDecode derEle noLeftOvers with
  | .error e => .error e
  | .ok (typeTag, payload, tlvLength) =>
    if typeTag ≠ 0x02 then .error .notDerInteger
    else
      match pyIndex payload 0 with
      | .error e => .error e
      | .ok b0 =>
        if 127 < b0 then .error .negativeInteger
        else .ok (bytes_to_long payload, tlvLength)

/-- An element of a `DerSequence`: either a Python non-negative integer
or a raw byte string (an opaque, already encoded sub-TLV). -/
inductive SeqElem where
  | int (v : Nat)
  | raw (s : List Nat)
  deriving DecidableEq, Repr

/-- One step of `DerSequence.encode`'s loop: a raw string is appended
as is, an integer is appended as `DerInteger(item).encode()`. -/
def seqItemEncode : SeqElem → List Nat
  | .raw s => s
  | .int v => derIntegerEncode v

/-- `DerSequence.encode`: concatenate the element encodings, then frame
with the SEQUENCE tag `0x30`. -/
def derSequenceEncode (seq : List SeqElem) : List Nat :=
  derObjectEncode 0x30 (seq.map seqItemEncode).flatten

/-- The `while idx < len(self.payload)` scan of `DerSequence.decode`.
`fuel` only bounds the number of iterations (the source loop always
terminates because `idx` strictly increases; fuel `payload.length + 1`
is always sufficient).  Returns the error that stopped the scan (if
any) together with the `_seq` list as mutated so far: elements appended
before a failure survive it. -/
def seqScan (payload : List Nat) :
    Nat → Nat → List SeqElem → Option Err × List SeqElem
  | fuel, idx, seq =>
    if h : idx < payload.length then
      match fuel with
      | 0 => (some .indexError, seq)
      | fuel + 1 =>
        if payload.get ⟨idx, h⟩ = 0x02 then
          match derIntegerDecode (pySliceFrom payload idx) false with
          | .error e => (some e, seq)
          | .ok (value, consumed) =>
              seqScan payload fuel (idx + consumed) (seq ++ [SeqElem.int value])
        else
          match decodeLen (idx + 1) payload with
          | .error e => (some e, seq)
          | .ok (itemLen, itemIdx) =>
              seqScan payload fuel (itemIdx + itemLen)
                (seq ++ [SeqElem.raw (pySlice payload idx (itemIdx + itemLen))])
    else (none, seq)

/-- `DerSequence.decode`, acting on an object whose `_seq` currently
holds `prevSeq`.  The first statement of the source is `self._seq = []`,
so `prevSeq` is discarded before any parsing.  Returns the result
(`tlvLength` or the raised error) together with the `_seq` field as it
is left after the call; the `try/except IndexError` wrapper converts a
scan-level `IndexError` into `ValueError("Not a valid DER SEQUENCE.")`. -/
def derSequenceDecode (prevSeq : List SeqElem) (derEle : List Nat)
    (noLeftOvers : Bool) : Except Err Nat × List SeqElem :=
  match derObjectDecode derEle noLeftOvers with
  | .error e => (.error e, [])
  | .ok (typeTag, payload, tlvLength) =>
    if typeTag ≠ 0x30 then (.error .notDerSequence, [])
    else
      match seqScan payload (payload.length + 1) 0 [] with
      | (some .indexError, seq) => (.error .notValidDerSequence, seq)
      | (some e, seq) => (.error e, seq)
      | (none, seq) => (.ok tlvLength, seq)

/-! ### Basic facts about `bytes_to_long` and `long_to_bytes` -/

theorem bytes_to_long_foldl (x : Nat) (s : List Nat) :
    s.foldl (fun acc c => acc * 256 + c) x = x * 256 ^ s.length + bytes_to_long s := by
  induction s generalizing x with
  | nil => simp [bytes_to_long]
  | cons c t ih =>
    simp only [List.foldl_cons, List.length_cons, bytes_to_long] at *
    rw [ih (x * 256 + c), ih (0 * 256 + c)]
    ring

theorem bytes_to_long_cons (c : Nat) (s : List Nat) :
    bytes_to_long (c :: s) = c * 256 ^ s.length + bytes_to_long s := by
  show List.foldl _ (0 * 256 + c) s = _
  rw [bytes_to_long_foldl]
  ring_nf

theorem bytes_to_long_append (a b : List Nat) :
    bytes_to_long (a ++ b) = bytes_to_long a * 256 ^ b.length + bytes_to_long b := by
  show List.foldl _ 0 (a ++ b) = _
  rw [List.foldl_append, bytes_to_long_foldl]
  rfl

theorem natBEAux_zero (f : Nat) (acc : List Nat) : natBEAux f 0 acc = acc := by
  cases f <;> rfl

theorem natBEAux_acc (f : Nat) : ∀ n acc, natBEAux f n acc = natBEAux f n [] ++ acc := by
  induction f with
  | zero => intro n acc; cases n <;> simp [natBEAux]
  | succ f ih =>
    intro n acc
    cases n with
    | zero => simp [natBEAux]
    | succ m =>
      show natBEAux f ((m + 1) / 256) ((m + 1) % 256 :: acc) =
        natBEAux f ((m + 1) / 256) ((m + 1) % 256 :: []) ++ acc
      rw [ih _ ((m + 1) % 256 :: acc), ih _ ((m + 1) % 256 :: [])]
      simp

theorem natBEAux_btl (f : Nat) : ∀ n, n ≤ f → bytes_to_long (natBEAux f n []) = n := by
  induction f with
  | zero =>
    intro n hn
    have h0 : n = 0 := by omega
    subst h0; rfl
  | succ f ih =>
    intro n hn
    cases n with
    | zero => rfl
    | succ m =>
      have hq : (m + 1) / 256 ≤ f := by
        have := Nat.div_lt_self (Nat.succ_pos m) (by norm_num : 1 < 256)
        omega
      show bytes_to_long (natBEAux f ((m + 1) / 256) ((m + 1) % 256 :: [])) = m + 1
      rw [show ((m + 1) % 256 :: []) = [(m + 1) % 256] from rfl, ← List.singleton_append,
        natBEAux_acc, bytes_to_long_append, ih _ hq]
      have hmod := Nat.div_add_mod (m + 1) 256
      simp [bytes_to_long]
      omega

theorem natBEAux_lt (f : Nat) : ∀ n, n ≤ f → n < 256 ^ (natBEAux f n []).length := by
  induction f with
  | zero =>
    intro n hn
    have h0 : n = 0 := by omega
    subst h0
    simp [natBEAux]
  | succ f ih =>
    intro n hn
    cases n with
    | zero => simp [natBEAux]
    | succ m =>
      have hq : (m + 1) / 256 ≤ f := by
        have := Nat.div_lt_self (Nat.succ_pos m) (by norm_num : 1 < 256)
        omega
      have h1 := ih _ hq
      have h2 : (m + 1) % 256 < 256 := Nat.mod_lt _ (by norm_num)
      have h3 := Nat.div_add_mod (m + 1) 256
      show m + 1 < 256 ^ (natBEAux f ((m + 1) / 256) ((m + 1) % 256 :: [])).length
      rw [natBEAux_acc f ((m + 1) / 256) ((m + 1) % 256 :: []), List.length_append]
      rw [show (((m + 1) % 256 :: []) : List Nat).length = 1 from rfl, pow_succ]
      have h5 : ((m + 1) / 256 + 1) * 256 ≤
          256 ^ (natBEAux f ((m + 1) / 256) []).length * 256 :=
        Nat.mul_le_mul_right 256 h1
      omega

theorem natBEAux_len_pos (f n : Nat) (h0 : 0 < n) (hf : n ≤ f) :
    0 < (natBEAux f n []).length := by
  rcases Nat.eq_zero_or_pos (natBEAux f n []).length with h | h
  · have := natBEAux_lt f n hf
    rw [h] at this
    simp at this
    omega
  · exact h

theorem natBEAux_ge (f : Nat) :
    ∀ n, 0 < n → n ≤ f → 256 ^ ((natBEAux f n []).length - 1) ≤ n := by
  induction f with
  | zero => intro n h0 hn; omega
  | succ f ih =>
    intro n h0 hn
    cases n with
    | zero => omega
    | succ m =>
      show 256 ^ ((natBEAux f ((m + 1) / 256) ((m + 1) % 256 :: [])).length - 1) ≤ m + 1
      rw [natBEAux_acc f ((m + 1) / 256) ((m + 1) % 256 :: []), List.length_append]
      rw [show (((m + 1) % 256 :: []) : List Nat).length = 1 from rfl]
      rcases Nat.eq_zero_or_pos ((m + 1) / 256) with hq0 | hq0
      · rw [hq0, natBEAux_zero]
        simp
      · have hq : (m + 1) / 256 ≤ f := by
          have := Nat.div_lt_self (Nat.succ_pos m) (by norm_num : 1 < 256)
          omega
        have h1 := ih _ hq0 hq
        have hlen := natBEAux_len_pos f _ hq0 hq
        have h3 := Nat.div_add_mod (m + 1) 256
        have hx : (natBEAux f ((m + 1) / 256) []).length + 1 - 1 =
            ((natBEAux f ((m + 1) / 256) []).length - 1) + 1 := by omega
        rw [hx, pow_succ]
        have h5 : 256 ^ ((natBEAux f ((m + 1) / 256) []).length - 1) * 256 ≤
            ((m + 1) / 256) * 256 := Nat.mul_le_mul_right 256 h1
        omega

theorem headI_append {a b : List Nat} (h : a ≠ []) : (a ++ b).headI = a.headI := by
  cases a with
  | nil => exact absurd rfl h
  | cons x t => rfl

theorem natBEAux_headI (f : Nat) :
    ∀ n, 0 < n → n ≤ f → (natBEAux f n []).headI ≠ 0 := by
  induction f with
  | zero => intro n h0 hn; omega
  | succ f ih =>
    intro n h0 hn
    cases n with
    | zero => omega
    | succ m =>
      show (natBEAux f ((m + 1) / 256) ((m + 1) % 256 :: [])).headI ≠ 0
      rw [show ((m + 1) % 256 :: []) = [(m + 1) % 256] from rfl, ← List.singleton_append,
        natBEAux_acc]
      rcases Nat.eq_zero_or_pos ((m + 1) / 256) with hq0 | hq0
      · rw [hq0, natBEAux_zero]
        have : m + 1 < 256 := by
          rcases Nat.lt_or_ge (m + 1) 256 with h | h
          · exact h
          · have := Nat.div_le_div_right (c := 256) h
            simp at this
            omega
        simp [Nat.mod_eq_of_lt this]
      · have hq : (m + 1) / 256 ≤ f := by
          have := Nat.div_lt_self (Nat.succ_pos m) (by norm_num : 1 < 256)
          omega
        have hne : natBEAux f ((m + 1) / 256) [] ≠ [] := by
          have := natBEAux_len_pos f _ hq0 hq
          intro hnil
          rw [hnil] at this
          simp at this
        rw [headI_append hne]
        exact ih _ hq0 hq

theorem long_to_bytes_btl (n : Nat) : bytes_to_long (long_to_bytes n) = n := by
  unfold long_to_bytes
  split
  · subst_vars; rfl
  · exact natBEAux_btl n n le_rfl

theorem long_to_bytes_ne_nil (n : Nat) : long_to_bytes n ≠ [] := by
  unfold long_to_bytes
  split
  · simp
  · rename_i h
    have hp : 0 < n := Nat.pos_of_ne_zero h
    have := natBEAux_len_pos n n hp le_rfl
    intro hnil
    rw [hnil] at this
    simp at this

theorem long_to_bytes_lt (n : Nat) : n < 256 ^ (long_to_bytes n).length := by
  unfold long_to_bytes
  split
  · subst_vars; simp
  · exact natBEAux_lt n n le_rfl

theorem long_to_bytes_ge (n : Nat) (h : 0 < n) :
    256 ^ ((long_to_bytes n).length - 1) ≤ n := by
  unfold long_to_bytes
  split
  · omega
  · exact natBEAux_ge n n h le_rfl

theorem long_to_bytes_headI (n : Nat) (h : 0 < n) : (long_to_bytes n).headI ≠ 0 := by
  unfold long_to_bytes
  split
  · omega
  · exact natBEAux_headI n n h le_rfl

theorem long_to_bytes_zero : long_to_bytes 0 = [0] := rfl

theorem long_to_bytes_length_le {n e : Nat} (he : 0 < e) (h : n < 256 ^ e) :
    (long_to_bytes n).length ≤ e := by
  by_contra hlen
  push_neg at hlen
  rcases Nat.eq_zero_or_pos n with h0 | h0
  · subst h0
    rw [long_to_bytes_zero] at hlen
    simp at hlen
    omega
  · have hge := long_to_bytes_ge n h0
    have hmono : 256 ^ e ≤ 256 ^ ((long_to_bytes n).length - 1) :=
      Nat.pow_le_pow_right (by norm_num) (by omega)
    omega

theorem and127_eq_mod (c : Nat) : c &&& 127 = c % 128 := by
  have h := Nat.and_pow_two_sub_one_eq_mod c 7
  norm_num at h
  exact h

theorem add128_and127 {k : Nat} (hk : k ≤ 127) : (k + 128) &&& 127 = k := by
  rw [and127_eq_mod]
  omega

/-! ### Index and slice translation lemmas -/

theorem pyIndex_drop (s : List Nat) (i j : Nat) :
    pyIndex (s.drop i) j = pyIndex s (i + j) := by
  unfold pyIndex
  rw [List.getElem?_drop]

theorem pySlice_drop (s : List Nat) (i a b : Nat) :
    pySlice (s.drop i) a b = pySlice s (i + a) (i + b) := by
  unfold pySlice
  rw [List.take_drop, List.drop_drop]

theorem pyIndex_cons_zero (c : Nat) (s : List Nat) : pyIndex (c :: s) 0 = .ok c := by
  unfold pyIndex
  rw [List.getElem?_cons_zero]

theorem pySlice_append_take (a b : List Nat) (m : Nat) :
    pySlice (a ++ b) a.length (a.length + m) = b.take m := by
  unfold pySlice
  rw [List.take_append, List.drop_left]

theorem pySlice_take_all (a b : List Nat) :
    pySlice (a ++ b) a.length (a.length + b.length) = b := by
  rw [pySlice_append_take, List.take_length]

/-- Shifting the start index of `_decodeLen` is the same as decoding the
dropped suffix and shifting the returned payload index. -/
theorem decodeLen_drop (i j : Nat) (s : List Nat) :
    decodeLen (i + j) s =
      (decodeLen j (s.drop i)).map (fun p => (p.1, i + p.2)) := by
  unfold decodeLen
  rw [← pyIndex_drop]
  rcases h : pyIndex (s.drop i) j with e | c
  · rfl
  · simp only []
    split
    · simp [Except.map]
      omega
    · rw [show i + j + 1 = i + (j + 1) from by omega,
        show i + (j + 1) + (c &&& 127) = i + (j + 1 + (c &&& 127)) from by omega,
        ← pySlice_drop]
      split
      · simp [Except.map]
      · simp [Except.map]

/-- Decoding the length field produced by `_lengthOctets n` (followed by
anything) recovers `n` and steps past the length octets, provided the
long-form byte count fits in seven bits. -/
theorem decodeLen_lengthOctets (n : Nat) (rest : List Nat)
    (hk : (long_to_bytes n).length ≤ 127) :
    decodeLen 0 (lengthOctets n ++ rest) = .ok (n, (lengthOctets n).length) := by
  unfold lengthOctets
  split
  · rename_i hn
    have hbtl := long_to_bytes_btl n
    have hmask := add128_and127 hk
    show decodeLen 0 (((long_to_bytes n).length + 128) :: (long_to_bytes n ++ rest)) = _
    unfold decodeLen
    rw [pyIndex_cons_zero]
    simp only []
    rw [if_neg (by omega)]
    rw [show (long_to_bytes n).length + 128 &&& 127 = (long_to_bytes n).length from hmask]
    have hslice : pySlice (((long_to_bytes n).length + 128) :: (long_to_bytes n ++ rest))
        (0 + 1) (0 + 1 + (long_to_bytes n).length) = long_to_bytes n := by
      have := pySlice_append_take ([(long_to_bytes n).length + 128]) (long_to_bytes n ++ rest)
        (long_to_bytes n).length
      simp only [List.singleton_append, List.length_singleton] at this
      rw [show (0 + 1 : Nat) = 1 from rfl, show (0 + 1 + (long_to_bytes n).length : Nat) =
        1 + (long_to_bytes n).length from rfl, this, List.take_left]
    rw [hslice, hbtl, if_neg (by omega)]
    rw [List.length_cons, show 0 + 1 + (long_to_bytes n).length =
      (long_to_bytes n).length + 1 from by omega]
  · rename_i hn
    show decodeLen 0 (n :: rest) = _
    unfold decodeLen
    rw [pyIndex_cons_zero]
    simp only []
    rw [if_pos (by omega)]
    rfl

theorem decodeLen_one (t : Nat) (rest : List Nat) :
    decodeLen 1 (t :: rest) = (decodeLen 0 rest).map (fun p => (p.1, 1 + p.2)) := by
  have h := decodeLen_drop 1 0 (t :: rest)
  simpa using h

/-! ### Framing: `DerObject.decode` after `DerObject.encode` -/

theorem derObjectDecodeAux_encode (t : Nat) (p extra : List Nat) (b : Bool)
    (ht : ¬ (t &&& 0x1F = 0x1F)) (hk : (long_to_bytes p.length).length ≤ 127) :
    derObjectDecodeAux (derObjectEncode t p ++ extra) b =
      if b = true ∧ extra ≠ [] then .error .notDerStructure
      else .ok (t, p, 1 + (lengthOctets p.length).length + p.length) := by
  have hbuf : derObjectEncode t p ++ extra
      = t :: (lengthOctets p.length ++ (p ++ extra)) := by
    simp [derObjectEncode]
  rw [hbuf]
  unfold derObjectDecodeAux
  rw [pyIndex_cons_zero]
  simp only []
  rw [if_neg ht, decodeLen_one, decodeLen_lengthOctets _ _ hk]
  simp only [Except.map]
  have hcond : (b ∧ (t :: (lengthOctets p.length ++ (p ++ extra))).length
        ≠ 1 + (lengthOctets p.length).length + p.length) ↔ (b = true ∧ extra ≠ []) := by
    constructor
    · rintro ⟨hb, hne⟩
      refine ⟨hb, fun hex => hne ?_⟩
      subst hex
      simp [List.length_cons, List.length_append]
      omega
    · rintro ⟨hb, hex⟩
      refine ⟨hb, fun hne => hex ?_⟩
      simp [List.length_cons, List.length_append] at hne
      have : extra.length = 0 := by omega
      exact List.length_eq_zero.mp this
  have hslice : pySlice (t :: (lengthOctets p.length ++ (p ++ extra)))
      (1 + (lengthOctets p.length).length)
      (1 + (lengthOctets p.length).length + p.length) = p := by
    have h2 : t :: (lengthOctets p.length ++ (p ++ extra))
        = (t :: lengthOctets p.length) ++ (p ++ extra) := by simp
    have h3 := pySlice_append_take (t :: lengthOctets p.length) (p ++ extra) p.length
    simp only [List.length_cons] at h3
    rw [h2, show 1 + (lengthOctets p.length).length
      = (lengthOctets p.length).length + 1 from by omega, h3, List.take_left]
  split
  · rename_i hyes
    rw [if_pos (hcond.mp hyes)]
  · rename_i hno
    rw [if_neg (fun hc => hno (hcond.mpr hc)), hslice]

theorem derObjectDecode_encode (t : Nat) (p extra : List Nat) (b : Bool)
    (ht : ¬ (t &&& 0x1F = 0x1F)) (hk : (long_to_bytes p.length).length ≤ 127) :
    derObjectDecode (derObjectEncode t p ++ extra) b =
      if b = true ∧ extra ≠ [] then .error .notDerStructure
      else .ok (t, p, 1 + (lengthOctets p.length).length + p.length) := by
  unfold derObjectDecode
  rw [derObjectDecodeAux_encode t p extra b ht hk]
  by_cases hc : b = true ∧ extra ≠ []
  · rw [if_pos hc]
  · rw [if_neg hc]

/-! ### `DerInteger`: payload shape and decode-after-encode -/

theorem derIntegerEncodePayload_facts (v : Nat) :
    derIntegerEncodePayload v ≠ [] ∧ (derIntegerEncodePayload v).headI ≤ 127 ∧
      bytes_to_long (derIntegerEncodePayload v) = v := by
  unfold derIntegerEncodePayload
  split
  · refine ⟨by simp, by simp, ?_⟩
    rw [bytes_to_long_cons, long_to_bytes_btl]
    simp
  · rename_i h
    push_neg at h
    exact ⟨long_to_bytes_ne_nil v, h, long_to_bytes_btl v⟩

theorem pyIndex_zero_of_ne_nil {s : List Nat} (h : s ≠ []) :
    pyIndex s 0 = .ok s.headI := by
  cases s with
  | nil => exact absurd rfl h
  | cons c t => exact pyIndex_cons_zero c t

/-- Decoding a buffer that starts with `DerInteger(v).encode()` (in lenient
mode) recovers `v` and consumes exactly the encoding, as long as the
payload length is representable in at most 127 length bytes. -/
theorem derIntegerDecode_encode_append (v : Nat) (extra : List Nat)
    (hk : (derIntegerEncodePayload v).length < 256 ^ 127) :
    derIntegerDecode (derIntegerEncode v ++ extra) false =
      .ok (v, 1 + (lengthOctets (derIntegerEncodePayload v).length).length
        + (derIntegerEncodePayload v).length) := by
  have hk' : (long_to_bytes (derIntegerEncodePayload v).length).length ≤ 127 :=
    long_to_bytes_length_le (by norm_num) hk
  obtain ⟨hne, hhead, hbtl⟩ := derIntegerEncodePayload_facts v
  unfold derIntegerDecode derIntegerEncode
  rw [derObjectDecode_encode 0x02 _ extra false (by decide) hk']
  rw [if_neg (by simp)]
  simp only []
  rw [if_neg (by decide), pyIndex_zero_of_ne_nil hne]
  simp only []
  rw [if_neg (by omega), hbtl]

/-- The total length of `DerInteger(v).encode()`. -/
theorem derIntegerEncode_length (v : Nat) :
    (derIntegerEncode v).length =
      1 + (lengthOctets (derIntegerEncodePayload v).length).length
        + (derIntegerEncodePayload v).length := by
  simp [derIntegerEncode, derObjectEncode, List.length_cons, List.length_append]
  omega

/-! ### The scan loop of `DerSequence.decode` -/

theorem drop_eq_cons_lt_length {s : List Nat} {i c : Nat} {r : List Nat}
    (h : s.drop i = c :: r) : i < s.length := by
  by_contra hle
  push_neg at hle
  rw [List.drop_eq_nil_of_le hle] at h
  cases h

theorem get_of_drop_eq_cons {s : List Nat} {i c : Nat} {r : List Nat}
    (hi : i < s.length) (h : s.drop i = c :: r) : s.get ⟨i, hi⟩ = c := by
  have h0 : s[i]? = some c := by
    have hd := List.getElem?_drop s i 0
    rw [h] at hd
    simpa using hd.symm
  have h1 : s[i]? = some s[i] := List.getElem?_eq_getElem hi
  rw [h0] at h1
  rw [List.get_eq_getElem]
  exact (Option.some.inj h1).symm

theorem pySlice_eq_drop_take (s : List Nat) (i m : Nat) :
    pySlice s i (i + m) = (s.drop i).take m :=
  (List.take_drop i m s).symm

/-- Dropping exactly a prefix of known length. -/
theorem drop_add_of_drop_eq {s pre post : List Nat} {i : Nat}
    (h : s.drop i = pre ++ post) : s.drop (i + pre.length) = post := by
  rw [← List.drop_drop, h, List.drop_left]

/-- Well-formedness of a sequence element for the round-trip: integers
need a length field fitting in at most 127 length bytes; raw blobs must
be complete TLVs whose tag byte differs from the INTEGER tag `0x02` and
whose length field is canonical for their payload. -/
def SeqElem.wf : SeqElem → Prop
  | .int v => (derIntegerEncodePayload v).length < 256 ^ 127
  | .raw s => ∃ t p, t ≠ 0x02 ∧ p.length < 256 ^ 127 ∧
      s = t :: (lengthOctets p.length ++ p)

/-- The scan of `DerSequence.decode`, run over a payload whose suffix at
`idx` is the concatenation of the encodings of `todo`, appends exactly
the elements of `todo` and succeeds. -/
theorem seqScan_complete (payload : List Nat) :
    ∀ (todo : List SeqElem) (fuel idx : Nat) (acc : List SeqElem),
      payload.drop idx = (todo.map seqItemEncode).flatten →
      (∀ e ∈ todo, e.wf) →
      payload.length < idx + fuel →
      seqScan payload fuel idx acc = (none, acc ++ todo) := by
  intro todo
  induction todo with
  | nil =>
    intro fuel idx acc hdrop _ _
    simp only [List.map_nil, List.flatten_nil] at hdrop
    have hlen : payload.length ≤ idx := List.drop_eq_nil_iff.mp hdrop
    rw [seqScan]
    rw [dif_neg (by omega)]
    simp
  | cons e rest ih =>
    intro fuel idx acc hdrop hwf hfuel
    have hwfe : e.wf := hwf e (by simp)
    have hwfr : ∀ x ∈ rest, x.wf := fun x hx => hwf x (by simp [hx])
    cases e with
    | int v =>
      have hkv : (derIntegerEncodePayload v).length < 256 ^ 127 := hwfe
      have henc : seqItemEncode (SeqElem.int v) = derIntegerEncode v := rfl
      have hshape : derIntegerEncode v
          = 0x02 :: (lengthOctets (derIntegerEncodePayload v).length
            ++ derIntegerEncodePayload v) := rfl
      have hdrop' : payload.drop idx
          = derIntegerEncode v ++ (rest.map seqItemEncode).flatten := by
        simpa [henc] using hdrop
      have hcons : payload.drop idx
          = 0x02 :: (lengthOctets (derIntegerEncodePayload v).length
            ++ derIntegerEncodePayload v ++ (rest.map seqItemEncode).flatten) := by
        rw [hdrop', hshape]
        simp
      have hi : idx < payload.length := drop_eq_cons_lt_length hcons
      have hfuelpos : 0 < fuel := by omega
      obtain ⟨f, rfl⟩ : ∃ f, fuel = f + 1 := ⟨fuel - 1, by omega⟩
      rw [seqScan]
      rw [dif_pos hi]
      simp only []
      rw [get_of_drop_eq_cons hi hcons]
      rw [if_pos rfl]
      have hdec : derIntegerDecode (pySliceFrom payload idx) false
          = .ok (v, 1 + (lengthOctets (derIntegerEncodePayload v).length).length
            + (derIntegerEncodePayload v).length) := by
        show derIntegerDecode (payload.drop idx) false = _
        rw [hdrop']
        exact derIntegerDecode_encode_append v _ hkv
      rw [hdec]
      simp only []
      have hL : 1 + (lengthOctets (derIntegerEncodePayload v).length).length
          + (derIntegerEncodePayload v).length = (derIntegerEncode v).length :=
        (derIntegerEncode_length v).symm
      have hdrop2 : payload.drop (idx + (1 + (lengthOctets
          (derIntegerEncodePayload v).length).length
          + (derIntegerEncodePayload v).length))
          = (rest.map seqItemEncode).flatten := by
        rw [hL]
        exact drop_add_of_drop_eq hdrop'
      rw [ih f _ (acc ++ [SeqElem.int v]) hdrop2 hwfr (by omega)]
      simp
    | raw s =>
      obtain ⟨t, p, htag, hkp, hs⟩ := hwfe
      have hk' : (long_to_bytes p.length).length ≤ 127 :=
        long_to_bytes_length_le (by norm_num) hkp
      have hdrop' : payload.drop idx
          = s ++ (rest.map seqItemEncode).flatten := by
        simpa using hdrop
      have hcons : payload.drop idx
          = t :: (lengthOctets p.length ++ (p ++ (rest.map seqItemEncode).flatten)) := by
        rw [hdrop', hs]
        simp
      have hi : idx < payload.length := drop_eq_cons_lt_length hcons
      have hfuelpos : 0 < fuel := by omega
      obtain ⟨f, rfl⟩ : ∃ f, fuel = f + 1 := ⟨fuel - 1, by omega⟩
      rw [seqScan]
      rw [dif_pos hi]
      simp only []
      rw [get_of_drop_eq_cons hi hcons]
      rw [if_neg htag]
      have hdl : decodeLen (idx + 1) payload
          = .ok (p.length, idx + (1 + (lengthOctets p.length).length)) := by
        rw [decodeLen_drop idx 1 payload, hcons, decodeLen_one,
          decodeLen_lengthOctets _ _ hk']
        rfl
      rw [hdl]
      simp only []
      have hslen : s.length = 1 + (lengthOctets p.length).length + p.length := by
        rw [hs]
        simp [List.length_cons, List.length_append]
        omega
      have hidx2 : idx + (1 + (lengthOctets p.length).length) + p.length
          = idx + s.length := by omega
      have hslice : pySlice payload idx
          (idx + (1 + (lengthOctets p.length).length) + p.length) = s := by
        rw [hidx2, pySlice_eq_drop_take, hdrop', List.take_left]
      have hdrop2 : payload.drop
          (idx + (1 + (lengthOctets p.length).length) + p.length)
          = (rest.map seqItemEncode).flatten := by
        rw [hidx2]
        exact drop_add_of_drop_eq hdrop'
      rw [hslice]
      rw [ih f _ (acc ++ [SeqElem.raw s]) hdrop2 hwfr (by omega)]
      simp

theorem derSequenceEncode_length (S : List SeqElem) :
    (derSequenceEncode S).length =
      1 + (lengthOctets ((S.map seqItemEncode).flatten).length).length
        + ((S.map seqItemEncode).flatten).length := by
  simp [derSequenceEncode, derObjectEncode, List.length_cons, List.length_append]
  omega

/-- Round-trip for sequences of well-formed elements: decoding the
encoding of `S` repopulates `_seq` with exactly `S` (whatever the prior
contents were) and consumes the whole buffer. -/
theorem derSequenceDecode_encode (prev : List SeqElem) (S : List SeqElem)
    (hwf : ∀ e ∈ S, e.wf)
    (hlen : ((S.map seqItemEncode).flatten).length < 256 ^ 127) :
    derSequenceDecode prev (derSequenceEncode S) false =
      (.ok (derSequenceEncode S).length, S) := by
  have hk' : (long_to_bytes ((S.map seqItemEncode).flatten).length).length ≤ 127 :=
    long_to_bytes_length_le (by norm_num) hlen
  unfold derSequenceDecode
  have happ : derSequenceEncode S
      = derObjectEncode 0x30 (S.map seqItemEncode).flatten ++ [] := by
    simp [derSequenceEncode]
  rw [happ, derObjectDecode_encode 0x30 _ [] false (by decide) hk']
  rw [if_neg (by simp)]
  simp only []
  rw [if_neg (by decide)]
  rw [seqScan_complete _ S _ 0 [] (by simp) hwf (by omega)]
  simp only [List.nil_append]
  rw [List.append_nil]
  have hol : (derObjectEncode 0x30 (S.map seqItemEncode).flatten).length
      = 1 + (lengthOctets ((S.map seqItemEncode).flatten).length).length
        + ((S.map seqItemEncode).flatten).length := by
    simp [derObjectEncode, List.length_cons, List.length_append]
    omega
  rw [hol]

/-! ### The claims -/

/-- C1: for every non-negative integer `v` (with its DER payload length
representable in at most 127 length octets, the only lengths a DER length
field can frame), `DerInteger(v).encode()` decoded by a fresh
`DerInteger` yields the value `v` again, consuming the whole buffer. -/
theorem C1_integer_roundtrip (v : Nat)
    (h : (derIntegerEncodePayload v).length < 256 ^ 127) :
    derIntegerDecode (derIntegerEncode v) false
      = .ok (v, (derIntegerEncode v).length) := by
  have happ := derIntegerDecode_encode_append v [] h
  rw [List.append_nil] at happ
  rw [happ, derIntegerEncode_length]

theorem C1_integer_roundtrip_witness :
    (derIntegerEncodePayload 128).length < 256 ^ 127 ∧
      derIntegerDecode (derIntegerEncode 128) false
        = .ok (128, (derIntegerEncode 128).length) :=
  ⟨by decide, C1_integer_roundtrip 128 (by decide)⟩

/-- C2 counterexample: the claim fails as stated.  A raw blob that is
itself a well-formed INTEGER TLV (`[0x02, 0x01, 0x05]`) does not come
back as an identical byte string: the decoder returns it as the integer
5. -/
theorem C2_sequence_roundtrip_counterexample :
    derSequenceDecode [] (derSequenceEncode [SeqElem.raw [0x02, 0x01, 0x05]]) false
      = (.ok 5, [SeqElem.int 5]) ∧
    (derSequenceDecode [] (derSequenceEncode [SeqElem.raw [0x02, 0x01, 0x05]]) false).2
      ≠ [SeqElem.raw [0x02, 0x01, 0x05]] := by decide

/-- C2 (amended): for every sequence `S` of non-negative integers and raw
blobs, where each blob is a complete well-framed TLV whose tag byte
differs from the INTEGER tag `0x02` and whose length field is canonical
for its payload (and all payload lengths are representable in at most
127 length octets), encoding then decoding with a fresh `DerSequence`
reconstructs exactly the ordered element list `S`. -/
theorem C2_sequence_roundtrip_amended (prev : List SeqElem) (S : List SeqElem)
    (hwf : ∀ e ∈ S, e.wf)
    (hlen : ((S.map seqItemEncode).flatten).length < 256 ^ 127) :
    derSequenceDecode prev (derSequenceEncode S) false
      = (.ok (derSequenceEncode S).length, S) :=
  derSequenceDecode_encode prev S hwf hlen

theorem C2_sequence_roundtrip_amended_witness :
    derSequenceDecode [] (derSequenceEncode
        [SeqElem.int 5, SeqElem.raw [0x05, 0x02, 0xBB, 0xCC]]) false
      = (.ok (derSequenceEncode
          [SeqElem.int 5, SeqElem.raw [0x05, 0x02, 0xBB, 0xCC]]).length,
        [SeqElem.int 5, SeqElem.raw [0x05, 0x02, 0xBB, 0xCC]]) := by
  refine C2_sequence_roundtrip_amended [] _ ?_ (by decide)
  intro e he
  simp only [List.mem_cons, List.not_mem_nil, or_false] at he
  rcases he with rfl | rfl
  · show (derIntegerEncodePayload 5).length < 256 ^ 127
    decide
  · exact ⟨0x05, [0xBB, 0xCC], by decide, by decide, by decide⟩

/-- C3 counterexample: the claim fails as stated.  On the failing buffer
`30 04 02 01 05 AA` (a SEQUENCE whose second sub-element is a lone tag
byte), decode raises, yet the element list is left holding the integer 5
decoded before the failure point — it is not empty. -/
theorem C3_failure_state_counterexample :
    (derSequenceDecode [] [0x30, 0x04, 0x02, 0x01, 0x05, 0xAA] false).1
      = .error .notValidDerSequence ∧
    (derSequenceDecode [] [0x30, 0x04, 0x02, 0x01, 0x05, 0xAA] false).2
      ≠ [] := by decide

/-- C3 (amended): the element list is reset at the start of every decode,
so no elements of a prior successful decode ever remain (the outcome is
independent of the prior list, and a failure while framing the outer TLV
leaves the list empty); however, elements decoded from the failing input
before the point of failure do remain. -/
theorem C3_failure_state_amended :
    (∀ prevOne prevTwo derEle b,
      derSequenceDecode prevOne derEle b = derSequenceDecode prevTwo derEle b) ∧
    (∀ prev derEle b e, derObjectDecode derEle b = .error e →
      (derSequenceDecode prev derEle b).2 = []) := by
  refine ⟨fun _ _ _ _ => rfl, ?_⟩
  intro prev derEle b e h
  unfold derSequenceDecode
  rw [h]

theorem C3_failure_state_amended_witness :
    (derSequenceDecode [SeqElem.int 7] [0x31] false).2 = [] :=
  C3_failure_state_amended.2 [SeqElem.int 7] [0x31] false
    .notValidDerSequence (by decide)

/-- C4: contrary to the claim, the code does not fail with a short-buffer
error when a buffer declares more bytes than it contains.
`_decodeLen` on `[0x82, 0xFF]` (two declared length bytes, one present)
silently mis-reads the truncated slice and returns 255; lenient
`DerObject.decode` on `[0x30, 0x05]` (five declared payload bytes, none
present) silently returns an empty payload and an index past the end of
the buffer; strict mode does fail, but with the length-mismatch error
`"Not a DER structure"` (the TrailingData kind), not a short-buffer
error. -/
theorem C4_short_buffer_behaviour :
    decodeLen 0 [0x82, 0xFF] = .ok (255, 3) ∧
    derObjectDecode [0x30, 0x05] false = .ok (0x30, [], 7) ∧
    derObjectDecode [0x30, 0x05] true = .error .notDerStructure := by decide

/-- C5: contrary to the claim, a well-framed SEQUENCE whose payload is
truncated mid-element can decode successfully.  `30 03 02 02 05` holds an
INTEGER sub-element declaring two content bytes with only one present:
decode succeeds with element list `[5]`.  `30 03 05 03 AA` holds an
opaque sub-element declaring three content bytes with only one present:
decode succeeds, storing the truncated blob. -/
theorem C5_truncated_sequence_accepted :
    derSequenceDecode [] [0x30, 0x03, 0x02, 0x02, 0x05] false
      = (.ok 5, [SeqElem.int 5]) ∧
    derSequenceDecode [] [0x30, 0x03, 0x05, 0x03, 0xAA] false
      = (.ok 5, [SeqElem.raw [0x05, 0x03, 0xAA]]) := by decide

/-- C6: decoding a buffer made of one valid TLV followed by at least one
trailing byte fails with `"Not a DER structure"` (the TrailingData kind)
in strict mode, and in lenient mode succeeds, returning the index of the
first byte after the TLV, which lies strictly inside the buffer (the
trailing bytes are unconsumed). -/
theorem C6_trailing_data (t : Nat) (p extra : List Nat)
    (ht : ¬ (t &&& 0x1F = 0x1F)) (hk : p.length < 256 ^ 127)
    (hex : extra ≠ []) :
    derObjectDecode (derObjectEncode t p ++ extra) true
      = .error .notDerStructure ∧
    derObjectDecode (derObjectEncode t p ++ extra) false
      = .ok (t, p, (derObjectEncode t p).length) ∧
    (derObjectEncode t p).length < (derObjectEncode t p ++ extra).length := by
  have hk' : (long_to_bytes p.length).length ≤ 127 :=
    long_to_bytes_length_le (by norm_num) hk
  have hlen : (derObjectEncode t p).length
      = 1 + (lengthOctets p.length).length + p.length := by
    simp [derObjectEncode, List.length_cons, List.length_append]
    omega
  refine ⟨?_, ?_, ?_⟩
  · rw [derObjectDecode_encode t p extra true ht hk', if_pos ⟨rfl, hex⟩]
  · rw [derObjectDecode_encode t p extra false ht hk',
      if_neg (by simp), hlen]
  · have hpos : 0 < extra.length := List.length_pos.mpr hex
    rw [List.length_append]
    omega

theorem C6_trailing_data_witness :
    derObjectDecode (derObjectEncode 0x30 [0x01, 0x02] ++ [0x09]) true
      = .error .notDerStructure ∧
    derObjectDecode (derObjectEncode 0x30 [0x01, 0x02] ++ [0x09]) false
      = .ok (0x30, [0x01, 0x02], (derObjectEncode 0x30 [0x01, 0x02]).length) ∧
    (derObjectEncode 0x30 [0x01, 0x02]).length
      < (derObjectEncode 0x30 [0x01, 0x02] ++ [0x09]).length :=
  C6_trailing_data 0x30 [0x01, 0x02] [0x09] (by decide) (by decide) (by decide)

/-- C7: `_lengthOctets n` is the single byte `n` for `n ≤ 127`, and
otherwise — for every `n` representable in at most 127 length octets,
the regime in which the source's `chr(len(encoding)+128)` receives a
byte value — the byte `0x80 | k = 128 + k` (with `k ≤ 127`, a genuine
byte) followed by the minimal `k`-byte big-endian encoding of `n` (it
decodes back to `n`, fits exactly, and `k` is the smallest byte count
holding `n`); the four boundary examples hold. -/
theorem C7_encode_length (n : Nat) :
    (n ≤ 127 → lengthOctets n = [n]) ∧
    (127 < n → n < 256 ^ 127 →
      ∃ k enc, lengthOctets n = (128 + k) :: enc ∧ k ≤ 127 ∧ enc.length = k ∧
        bytes_to_long enc = n ∧ n < 256 ^ k ∧ 256 ^ (k - 1) ≤ n) ∧
    lengthOctets 127 = [0x7F] ∧ lengthOctets 128 = [0x81, 0x80] ∧
    lengthOctets 255 = [0x81, 0xFF] ∧ lengthOctets 256 = [0x82, 0x01, 0x00] := by
  refine ⟨?_, ?_, by decide, by decide, by decide, by decide⟩
  · intro h
    unfold lengthOctets
    rw [if_neg (by omega)]
  · intro h hrep
    refine ⟨(long_to_bytes n).length, long_to_bytes n, ?_,
      long_to_bytes_length_le (by norm_num) hrep, rfl,
      long_to_bytes_btl n, long_to_bytes_lt n, long_to_bytes_ge n (by omega)⟩
    unfold lengthOctets
    rw [if_pos (by omega)]
    simp only []
    congr 1
    omega

theorem C7_encode_length_witness :
    lengthOctets 100 = [100] ∧
    (∃ k enc, lengthOctets 200 = (128 + k) :: enc ∧ k ≤ 127 ∧ enc.length = k ∧
      bytes_to_long enc = 200 ∧ 200 < 256 ^ k ∧ 256 ^ (k - 1) ≤ 200) :=
  ⟨(C7_encode_length 100).1 (by decide),
    (C7_encode_length 200).2.1 (by decide) (by decide)⟩

/-- C8: every long-form length field whose decoded value is at most 127
(first byte `128 + k`, then `k` big-endian bytes encoding a value ≤ 127)
is rejected with `"Not a DER length tag."` (the InvalidLength kind). -/
theorem C8_noncanonical_rejected (k : Nat) (bs rest : List Nat)
    (hlen : bs.length = k) (hk : k ≤ 127) (hval : bytes_to_long bs ≤ 127) :
    decodeLen 0 ((128 + k) :: (bs ++ rest)) = .error .notDerLengthTag := by
  unfold decodeLen
  rw [pyIndex_cons_zero]
  simp only []
  rw [if_neg (by omega)]
  have hmask : (128 + k) &&& 127 = k := by
    rw [Nat.add_comm]
    exact add128_and127 hk
  rw [hmask]
  have hslice : pySlice ((128 + k) :: (bs ++ rest)) (0 + 1) (0 + 1 + k) = bs := by
    have h3 := pySlice_append_take [128 + k] (bs ++ rest) k
    simp only [List.singleton_append, List.length_singleton] at h3
    rw [show (0 + 1 : Nat) = 1 from rfl, show (0 + 1 + k : Nat) = 1 + k from rfl, h3,
      ← hlen, List.take_left]
  rw [hslice, if_pos hval]

theorem C8_noncanonical_rejected_witness :
    decodeLen 0 [0x81, 0x05] = .error .notDerLengthTag :=
  C8_noncanonical_rejected 1 [0x05] [] (by decide) (by decide) (by decide)

/-- C9: the INTEGER payload of `v` is never empty, decodes back to `v`,
has a clear sign bit, is `[0x00]` exactly for `v = 0`, never carries a
redundant leading `0x00` (a zero first byte is either the whole payload
for `v = 0` or is followed by a byte with its high bit set), and is the
padded minimal encoding exactly when the minimal encoding's first byte
has its high bit set; `DerInteger(128).encode()` is `02 02 00 80`. -/
theorem C9_integer_payload (v : Nat) :
    derIntegerEncodePayload v ≠ [] ∧
    bytes_to_long (derIntegerEncodePayload v) = v ∧
    (derIntegerEncodePayload v).headI ≤ 127 ∧
    (v = 0 → derIntegerEncodePayload v = [0x00]) ∧
    ((derIntegerEncodePayload v).headI = 0 →
      derIntegerEncodePayload v = [0x00]
        ∨ 127 < (derIntegerEncodePayload v).tail.headI) ∧
    ((derIntegerEncodePayload v).length = (long_to_bytes v).length + 1
      ↔ 127 < (long_to_bytes v).headI) ∧
    derIntegerEncode 128 = [0x02, 0x02, 0x00, 0x80] := by
  obtain ⟨hne, hhead, hbtl⟩ := derIntegerEncodePayload_facts v
  refine ⟨hne, hbtl, hhead, ?_, ?_, ?_, by decide⟩
  · rintro rfl
    decide
  · intro h0
    unfold derIntegerEncodePayload at h0 ⊢
    by_cases hpad : 127 < (long_to_bytes v).headI
    · rw [if_pos hpad] at h0 ⊢
      right
      simpa using hpad
    · rw [if_neg hpad] at h0 ⊢
      left
      have hv : v = 0 := by
        by_contra hv
        exact long_to_bytes_headI v (Nat.pos_of_ne_zero hv) h0
      rw [hv, long_to_bytes_zero]
  · unfold derIntegerEncodePayload
    by_cases hpad : 127 < (long_to_bytes v).headI
    · rw [if_pos hpad]
      simpa using hpad
    · rw [if_neg hpad]
      constructor
      · intro h
        omega
      · intro h
        exact absurd h hpad

theorem C9_integer_payload_witness :
    derIntegerEncodePayload 0 = [0x00] ∧
    (derIntegerEncodePayload 128 = [0x00]
      ∨ 127 < (derIntegerEncodePayload 128).tail.headI) :=
  ⟨(C9_integer_payload 0).2.2.2.1 rfl, (C9_integer_payload 128).2.2.2.2.1 (by decide)⟩

/-- C10: decoding the well-framed two-byte INTEGER TLV `02 00` (empty
payload) raises a bare `IndexError` from the sign-bit check
`ord(self.payload[0])` — not any of the documented `ValueError` kinds —
in both lenient and strict mode. -/
theorem C10_empty_integer_payload :
    derIntegerDecode [0x02, 0x00] false = .error .indexError ∧
    derIntegerDecode [0x02, 0x00] true = .error .indexError := by decide

end Asn1
